import Mathlib

set_option maxRecDepth 10000

/-!
Verification of the retrieval strategy engine of a RAG question-answering
application (`src/retrieval_strategies.py`, `src/utils.py`).

Modelling conventions:
* Python classes become Lean functions over explicit collaborator records
  (`VectorStore` for the FAISS store, `LLMClient` for the Bedrock LLM).
* Python exceptions become `Except String`; a `try/except` block is an
  explicit `match` on the `Except` value.
* Python floats become rationals (`ℚ`); arithmetic is exact.
* The stable Python sorts `sorted(..., reverse=True)` and
  `list.sort(..., reverse=True)` become the stable descending insertion
  sort `sortDesc`.
* The `doc_dict` insertion-ordered dictionaries become association lists
  (`List (DictEntry β)`), updated in place and appended at the end,
  exactly the Python insertion-order semantics.
* `json.loads` is an external library call and is modelled by an abstract
  parser argument `jp : String → Option (List (String × MValue))`
  (`some obj` for a JSON object, `none` for a parse failure).
-/

/-- Scalar metadata / JSON values (string or integer) with decidable
equality mirroring Python `!=` on scalars. -/
inductive MValue where
  | s (v : String)
  | i (v : Int)
deriving DecidableEq, Repr

/-- A langchain `Document`: page content plus a metadata mapping
(`metadata` keys are unique, lookup is first-match). -/
structure Document where
  page_content : String
  metadata : List (String × MValue)
deriving DecidableEq, Repr

/-- The FAISS vector store collaborator: `similarity_search(query, k=k)`
either returns a document list or raises. -/
structure VectorStore where
  similarity_search : String → ℕ → Except String (List Document)

/-- The LLM collaborator: `llm.invoke(prompt)`; the result models
`response.content`, an error models a raised exception. -/
structure LLMClient where
  invoke : String → Except String String

instance {ε α : Type} [DecidableEq ε] [DecidableEq α] : DecidableEq (Except ε α) := fun a b =>
  match a, b with
  | .ok x, .ok y => if h : x = y then .isTrue (by rw [h]) else .isFalse (by simp [h])
  | .ok _, .error _ => .isFalse (by simp)
  | .error _, .ok _ => .isFalse (by simp)
  | .error x, .error y => if h : x = y then .isTrue (by rw [h]) else .isFalse (by simp [h])

/-- The well-formedness contract of the vector index (spec section 6):
`similaritySearch(text, k)` may return at most `k` passages. -/
def VectorStore.Bounded (vs : VectorStore) : Prop :=
  ∀ q k docs, vs.similarity_search q k = .ok docs → docs.length ≤ k

/-- Insert `a` into a list that is sorted descending by `key`, before the
first element whose key is `≤ key a`.  Together with `sortDesc` this is
the stable descending sort computed by Python
`sorted(..., key=..., reverse=True)`. -/
def insertDesc {α β : Type} [LinearOrder β] (key : α → β) (a : α) : List α → List α
  | [] => [a]
  | b :: bs => if key a < key b then b :: insertDesc key a bs else a :: b :: bs

/-- Stable descending insertion sort by `key` (equal keys keep their
input order, exactly Python's stable `sorted(..., reverse=True)`). -/
def sortDesc {α β : Type} [LinearOrder β] (key : α → β) : List α → List α
  | [] => []
  | a :: l => insertDesc key a (sortDesc key l)

/-- Python character slicing `s[:n]` (the first `n` characters).  Defined
through `List.take` on the character list, which keeps definitional
reduction cheap. -/
def takeChars (n : ℕ) (s : String) : String := ⟨s.data.take n⟩

/-- The deduplication fingerprint `doc.page_content[:100]` used by every
merging strategy. -/
def fp (d : Document) : String := takeChars 100 d.page_content

/-- One entry of the transient `doc_dict` merge structure: fingerprint
key, the first document discovered for that key, and the accumulated
value (a score, an occurrence count, or a hop index list). -/
structure DictEntry (β : Type) where
  key : String
  doc : Document
  val : β
deriving DecidableEq, Repr

/-- One step of the `doc_dict` merge loop shared by the Hybrid, Query
Expansion and Multi-Hop strategies: on an already-known fingerprint the
stored value is updated with `upd` (the document is kept), otherwise a
fresh entry with value `mk` is appended. -/
def dictAdd {β : Type} (upd : β → β) (mk : β) (dict : List (DictEntry β)) (d : Document) :
    List (DictEntry β) :=
  if dict.any (fun e => e.key == fp d) then
    dict.map (fun e => if e.key = fp d then { e with val := upd e.val } else e)
  else
    dict ++ [⟨fp d, d, mk⟩]

/-- The documents of `docs` that introduce a fingerprint not in `seen`
and not introduced by an earlier element of `docs` (the documents that
create new `doc_dict` entries). -/
def newFirsts (seen : List String) : List Document → List Document
  | [] => []
  | d :: ds => if fp d ∈ seen then newFirsts seen ds else d :: newFirsts (fp d :: seen) ds

/-- Number of documents in `docs` whose fingerprint is `key`. -/
def keyCount (key : String) (docs : List Document) : ℕ :=
  docs.countP (fun d => fp d == key)

/-- Python `str.strip()`: drop leading and trailing whitespace.  Defined
on the character list so that it reduces in the kernel. -/
def stripChars (s : String) : String :=
  ⟨((s.data.dropWhile Char.isWhitespace).reverse.dropWhile Char.isWhitespace).reverse⟩

/-- Split a character list at every occurrence of `sep` (Python
`str.split(sep)` for a one-character separator). -/
def splitOnChar (sep : Char) : List Char → List (List Char)
  | [] => [[]]
  | c :: cs =>
    match splitOnChar sep cs with
    | [] => if c = sep then [[], [c]] else [[c]]
    | h :: t => if c = sep then [] :: h :: t else (c :: h) :: t

/-- Python `str.split(sep)` for a one-character separator. -/
def splitOnStr (sep : Char) (s : String) : List String :=
  (splitOnChar sep s.data).map String.mk

/-- Numeric value of a list of decimal digit characters. -/
def digitsVal (cs : List Char) : ℕ :=
  cs.foldl (fun n c => 10 * n + (c.toNat - 48)) 0

/-- Unsigned decimal literal: integer digits with optional fractional
digits (at least one digit overall). -/
def parseUnsignedDecimal (s : String) : Option ℚ :=
  match splitOnStr '.' s with
  | [ip] =>
    if ip.data ≠ [] ∧ ip.data.all Char.isDigit then
      some (digitsVal ip.data : ℚ)
    else none
  | [ip, fr] =>
    if (ip.data ≠ [] ∨ fr.data ≠ []) ∧ ip.data.all Char.isDigit ∧ fr.data.all Char.isDigit then
      some ((digitsVal ip.data : ℚ) + (digitsVal fr.data : ℚ) / (10 : ℚ) ^ fr.length)
    else none
  | _ => none

/-- Python `float(...)` restricted to the plain decimal literals relevant
to relevance scores: optional sign, integer digits, optional fractional
digits.  Anything else fails to parse (the "unparsable score" case). -/
def parseDecimal (str : String) : Option ℚ :=
  match str.data with
  | '-' :: rest => (parseUnsignedDecimal (String.mk rest)).map (fun x => -x)
  | '+' :: rest => parseUnsignedDecimal (String.mk rest)
  | _ => parseUnsignedDecimal str

/-- Prompt of `SemanticQueryExpansionRetriever._generate_paraphrases`. -/
def expansionPrompt (expansion_count : ℕ) (q : String) : String :=
  "Generate " ++ toString expansion_count ++ " different ways to rephrase this question. \n" ++
  "Return only the questions, one per line, without numbering.\n\nOriginal Question: " ++ q ++
  "\n\nRephrased Questions:"

/-- Prompt of `ContextReRankingRetriever._score_relevance`. -/
def rerankPrompt (q : String) (d : Document) : String :=
  "Rate the relevance of this document to the query on a scale of 0-10.\n" ++
  "Return only a single number.\n\nQuery: " ++ q ++ "\n\nDocument: " ++
  takeChars 300 d.page_content ++ "...\n\nRelevance Score:"

/-- Prompt of `SelfQueryRetriever._extract_filters`. -/
def selfQueryPrompt (fields : List String) (q : String) : String :=
  "Extract metadata filters from this query if present.\n" ++
  "Return a JSON object with extracted filters, or empty object if none found.\n\n" ++
  "Available metadata fields: " ++ String.intercalate ", " fields ++
  "\n\nQuery: " ++ q ++ "\n\nExtracted Filters (JSON only):"

/-- Prompt of `MultiHopRetriever._decompose_question`. -/
def decomposePrompt (max_hops : ℕ) (q : String) : String :=
  "Decompose this complex question into " ++ toString (min max_hops 3) ++
  " simpler sub-questions.\nReturn only the questions, one per line, without numbering.\n\n" ++
  "Original Question: " ++ q ++ "\n\nSub-questions:"

/-- `SemanticRetriever.retrieve`: plain similarity search; an exception is
caught, logged, and an empty list is returned. -/
def semanticRetrieve (vs : VectorStore) (q : String) (k : ℕ) : Except String (List Document) :=
  match vs.similarity_search q k with
  | .ok docs => .ok docs
  | .error _ => .ok []

/-- The `doc_dict` of `HybridRetriever.retrieve`: add each semantic result
with `semantic_weight`, then each keyword result with `keyword_weight`,
accumulating on fingerprint collision. -/
def hybridDict (semantic_weight keyword_weight : ℚ) (semantic_docs keyword_docs : List Document) :
    List (DictEntry ℚ) :=
  keyword_docs.foldl (dictAdd (· + keyword_weight) keyword_weight)
    (semantic_docs.foldl (dictAdd (· + semantic_weight) semantic_weight) [])

/-- `HybridRetriever.retrieve`.  Without a BM25 retriever the plain
similarity search is returned (an exception falls into the `except`
branch which issues the same plain search again, uncaught).  With BM25,
the semantic and keyword result lists are merged by fingerprint with
additive weights, sorted descending by accumulated score, and truncated
to `k`. -/
def hybridRetrieve (vs : VectorStore) (bm25 : Option (String → List Document))
    (semantic_weight : ℚ) (q : String) (k : ℕ) : Except String (List Document) :=
  let keyword_weight : ℚ := 1 - semantic_weight
  match bm25 with
  | none =>
    match vs.similarity_search q k with
    | .ok docs => .ok docs
    | .error _ => vs.similarity_search q k
  | some bm =>
    match vs.similarity_search q k with
    | .error _ => vs.similarity_search q k
    | .ok semantic_docs =>
      let keyword_docs := (bm q).take k
      let dict := hybridDict semantic_weight keyword_weight semantic_docs keyword_docs
      .ok (((sortDesc (fun e => e.val) dict).take k).map (fun e => e.doc))

/-- `SemanticQueryExpansionRetriever._generate_paraphrases`: without an
LLM, or when the LLM call raises, the fallback is `[query]`; otherwise
the response is split into lines, stripped, blank lines dropped, and
truncated to `expansion_count`. -/
def generateParaphrases (llm : Option LLMClient) (expansion_count : ℕ) (q : String) :
    List String :=
  match llm with
  | none => [q]
  | some c =>
    match c.invoke (expansionPrompt expansion_count q) with
    | .error _ => [q]
    | .ok content =>
      ((((splitOnStr '\n' (stripChars content)).filter
          (fun p => !(stripChars p).data.isEmpty)).map
          (fun p => stripChars p)).take expansion_count)

/-- The query list searched by `SemanticQueryExpansionRetriever.retrieve`:
the original query followed by the generated paraphrases; one
`similarity_search` call is issued per element. -/
def queryExpansionQueries (llm : Option LLMClient) (expansion_count : ℕ) (q : String) :
    List String :=
  q :: generateParaphrases llm expansion_count q

/-- The search-and-tally loop of `SemanticQueryExpansionRetriever.retrieve`:
one similarity search per query variant, counting per fingerprint how many
searches returned it; a raised search aborts the loop. -/
def qeFold (vs : VectorStore) (k : ℕ) :
    List String → List (DictEntry ℕ) → Except String (List (DictEntry ℕ))
  | [], dict => .ok dict
  | q' :: rest, dict =>
    match vs.similarity_search q' k with
    | .error e => .error e
    | .ok docs => qeFold vs k rest (docs.foldl (dictAdd (· + 1) 1) dict)

/-- `SemanticQueryExpansionRetriever.retrieve`: tally retrieval frequency
over all query variants, sort descending by count, return the top `k`;
a raised search falls into the `except` branch, which issues a plain
similarity search for the original query, uncaught. -/
def queryExpansionRetrieve (vs : VectorStore) (llm : Option LLMClient) (expansion_count : ℕ)
    (q : String) (k : ℕ) : Except String (List Document) :=
  match qeFold vs k (queryExpansionQueries llm expansion_count q) [] with
  | .error _ => vs.similarity_search q k
  | .ok dict => .ok (((sortDesc (fun e => e.val) dict).take k).map (fun e => e.doc))

/-- `ContextReRankingRetriever._score_relevance`: without an LLM the score
is uniformly `1.0`; a raised LLM call or an unparsable response scores
`5.0`; a parsed score is clamped into `[0, 10]`. -/
def scoreRelevance (llm : Option LLMClient) (q : String) (d : Document) : ℚ :=
  match llm with
  | none => 1
  | some c =>
    match c.invoke (rerankPrompt q d) with
    | .error _ => 5
    | .ok content =>
      match parseDecimal (stripChars content) with
      | none => 5
      | some score => min (max score 0) 10

/-- `ContextReRankingRetriever.retrieve`: fetch a pool of size
`rerank_top_k`, score each candidate, stably sort descending by score,
return the first `k`; a raised pool fetch falls into the `except` branch,
which issues a plain similarity search with `k`, uncaught. -/
def rerankingRetrieve (vs : VectorStore) (llm : Option LLMClient) (rerank_top_k : ℕ)
    (q : String) (k : ℕ) : Except String (List Document) :=
  match vs.similarity_search q rerank_top_k with
  | .error _ => vs.similarity_search q k
  | .ok initial_docs =>
    if initial_docs.isEmpty then .ok []
    else
      let scored_docs := initial_docs.map (fun d => (d, scoreRelevance llm q d))
      .ok (((sortDesc (fun p => p.2) scored_docs).take k).map (fun p => p.1))

/-- `SelfQueryRetriever._extract_filters`: without an LLM, on a raised LLM
call, or on a JSON parse failure the filter is empty; otherwise the parsed
JSON object is returned verbatim (no restriction to the configured
metadata fields is enforced). -/
def extractFilters (jp : String → Option (List (String × MValue))) (llm : Option LLMClient)
    (fields : List String) (q : String) : List (String × MValue) :=
  match llm with
  | none => []
  | some c =>
    match c.invoke (selfQueryPrompt fields q) with
    | .error _ => []
    | .ok content =>
      match jp (stripChars content) with
      | none => []
      | some filters => filters

/-- The per-candidate metadata test of `SelfQueryRetriever.retrieve`: a
candidate matches unless some filter key is present in its metadata with
a different value (absent keys never disqualify). -/
def matchesFilter (filters : List (String × MValue)) (d : Document) : Bool :=
  filters.all (fun kv =>
    match d.metadata.lookup kv.1 with
    | some v => decide (v = kv.2)
    | none => true)

/-- `SelfQueryRetriever.retrieve`: extract a filter, search, and if the
filter is non-empty drop the non-matching candidates — unless that would
drop everything, in which case the unfiltered results are used; return
the first `k`.  A raised search falls into the `except` branch, which
issues the same plain search again, uncaught. -/
def selfQueryRetrieve (vs : VectorStore) (llm : Option LLMClient) (fields : List String)
    (jp : String → Option (List (String × MValue))) (q : String) (k : ℕ) :
    Except String (List Document) :=
  let filters := extractFilters jp llm fields q
  match vs.similarity_search q k with
  | .error _ => vs.similarity_search q k
  | .ok docs =>
    let kept :=
      if filters.isEmpty then docs
      else
        let filtered_docs := docs.filter (fun d => matchesFilter filters d)
        if filtered_docs.isEmpty then docs else filtered_docs
    .ok (kept.take k)

/-- `MultiHopRetriever._decompose_question`: without an LLM, on a raised
LLM call, or on an empty decomposition the fallback is `[query]`;
otherwise the response lines, stripped, non-blank, truncated to
`max_hops`. -/
def decomposeQuestion (llm : Option LLMClient) (max_hops : ℕ) (q : String) : List String :=
  match llm with
  | none => [q]
  | some c =>
    match c.invoke (decomposePrompt max_hops q) with
    | .error _ => [q]
    | .ok content =>
      let subs := ((((splitOnStr '\n' (stripChars content)).filter
          (fun p => !(stripChars p).data.isEmpty)).map
          (fun p => stripChars p)).take max_hops)
      if subs.isEmpty then [q] else subs

/-- The search-and-tally loop of `MultiHopRetriever.retrieve`: one
similarity search per sub-question (the hop index `i` is appended to the
hop list of each returned fingerprint); a raised search aborts the loop. -/
def mhFold (vs : VectorStore) (k : ℕ) :
    List String → ℕ → List (DictEntry (List ℕ)) → Except String (List (DictEntry (List ℕ)))
  | [], _, dict => .ok dict
  | q' :: rest, i, dict =>
    match vs.similarity_search q' k with
    | .error e => .error e
    | .ok docs => mhFold vs k rest (i + 1) (docs.foldl (dictAdd (fun h => h ++ [i]) [i]) dict)

/-- `MultiHopRetriever.retrieve`: decompose, search per sub-question,
sort descending by the number of hops that surfaced each fingerprint,
return the top `k`; a raised search falls into the `except` branch, which
issues a plain similarity search for the original query, uncaught. -/
def multiHopRetrieve (vs : VectorStore) (llm : Option LLMClient) (max_hops : ℕ)
    (q : String) (k : ℕ) : Except String (List Document) :=
  match mhFold vs k (decomposeQuestion llm max_hops q) 0 [] with
  | .error _ => vs.similarity_search q k
  | .ok dict => .ok (((sortDesc (fun e => e.val.length) dict).take k).map (fun e => e.doc))

/-- The six registered strategy identifiers (`StrategyFactory._strategies`). -/
inductive StrategyKind where
  | semantic
  | hybrid
  | query_expansion
  | reranking
  | self_query
  | multihop
deriving DecidableEq, Repr

/-- The `StrategyFactory._strategies` class dictionary. -/
def strategiesTable : List (String × StrategyKind) :=
  [("semantic", .semantic), ("hybrid", .hybrid), ("query_expansion", .query_expansion),
   ("reranking", .reranking), ("self_query", .self_query), ("multihop", .multihop)]

/-- `cls._strategies.get(strategy_name.lower())` before the fallback. -/
def strategyLookup (s : String) : Option StrategyKind :=
  strategiesTable.lookup s

/-- Python `str.lower()` on the ASCII strategy identifiers, written as a
character map so that it reduces in the kernel. -/
def lowerAscii (s : String) : String := ⟨s.data.map Char.toLower⟩

/-- The strategy class chosen by `StrategyFactory.create`: the registry is
consulted with the lowercased identifier, and an unknown identifier falls
back to the Semantic strategy class. -/
def factoryCreateKind (strategy_name : String) : StrategyKind :=
  (strategyLookup (lowerAscii strategy_name)).getD .semantic

/-- `StrategyFactory.create`: choose the class, then run its constructor
(which may raise, e.g. on keyword arguments the class does not accept —
modelled by the abstract `ctor`). -/
def factoryCreate (ctor : StrategyKind → Except String Unit) (strategy_name : String) :
    Except String StrategyKind :=
  match ctor (factoryCreateKind strategy_name) with
  | .ok _ => .ok (factoryCreateKind strategy_name)
  | .error e => .error e

/-- The observable `RetrieverManager` state: the active strategy (kind)
and the recorded identifier string. -/
structure ManagerState where
  retriever : Option StrategyKind
  current_strategy : Option String
deriving DecidableEq, Repr

/-- `RetrieverManager.initialize_strategy`: construct via the factory and
record the identifier; if construction raises, fall back to constructing
the Semantic strategy (argument-free, cannot raise) and record
`"semantic"`.  The BM25 bootstrap for hybrid is wrapped in its own
`try/except` and does not affect this state. -/
def initStrategy (ctor : StrategyKind → Except String Unit) (strategy_name : String)
    (_st : ManagerState) : ManagerState :=
  match factoryCreate ctor strategy_name with
  | .ok kind => { retriever := some kind, current_strategy := some strategy_name }
  | .error _ => { retriever := some .semantic, current_strategy := some "semantic" }

/-- A configured strategy instance: the variant tag together with the
collaborators and configuration its constructor received. -/
inductive StrategyConf where
  | semantic
  | hybrid (bm25 : Option (String → List Document)) (semantic_weight : ℚ)
  | query_expansion (llm : Option LLMClient) (expansion_count : ℕ)
  | reranking (llm : Option LLMClient) (rerank_top_k : ℕ)
  | self_query (llm : Option LLMClient) (fields : List String)
      (jp : String → Option (List (String × MValue)))
  | multihop (llm : Option LLMClient) (max_hops : ℕ)

/-- The polymorphic `retrieve(query, k)` dispatch over the six strategy
variants. -/
def StrategyConf.retrieve : StrategyConf → VectorStore → String → ℕ → Except String (List Document)
  | .semantic, vs, q, k => semanticRetrieve vs q k
  | .hybrid bm25 w, vs, q, k => hybridRetrieve vs bm25 w q k
  | .query_expansion llm ec, vs, q, k => queryExpansionRetrieve vs llm ec q k
  | .reranking llm rtk, vs, q, k => rerankingRetrieve vs llm rtk q k
  | .self_query llm fields jp, vs, q, k => selfQueryRetrieve vs llm fields jp q k
  | .multihop llm mh, vs, q, k => multiHopRetrieve vs llm mh q k

/-! Concrete collaborators and documents used to instantiate the claims. -/

/-- A vector store whose similarity search always raises. -/
def vsDown : VectorStore := ⟨fun _ _ => .error "service unavailable"⟩

def wDoc1 : Document := ⟨"installation guide", []⟩

def wDoc2 : Document := ⟨"troubleshooting steps", []⟩

def wDoc3 : Document := ⟨"warranty terms", []⟩

/-- A healthy store holding three documents. -/
def vsUp : VectorStore := ⟨fun _ k => .ok ([wDoc1, wDoc2, wDoc3].take k)⟩

def docManual : Document := ⟨"printer manual", [("type", .s "manual")]⟩

def docSpecA : Document := ⟨"device spec a", [("type", .s "spec")]⟩

def docSpecB : Document := ⟨"device spec b", [("type", .s "spec")]⟩

/-- Store for the Self-Query scenarios: three candidates, each carrying a
`type` metadata field, only one of them `manual`. -/
def vsTyped : VectorStore := ⟨fun _ k => .ok ([docManual, docSpecA, docSpecB].take k)⟩

/-- An LLM that always answers with the filter `{"type": "manual"}`. -/
def llmTypeManual : LLMClient := ⟨fun _ => .ok "\x7b\"type\": \"manual\"\x7d"⟩

/-- A `json.loads` model knowing the two JSON object literals used in the
scenarios here; everything else fails to parse. -/
def jpDemo : String → Option (List (String × MValue)) := fun str =>
  if str = "\x7b\"type\": \"manual\"\x7d" then some [("type", .s "manual")]
  else if str = "\x7b\"author\": \"alice\"\x7d" then some [("author", .s "alice")]
  else none

def docByAlice : Document := ⟨"notes by alice", [("author", .s "alice")]⟩

def docByBob : Document := ⟨"notes by bob", [("author", .s "bob")]⟩

/-- Store for the out-of-set filter key scenario. -/
def vsAuthors : VectorStore := ⟨fun _ k => .ok ([docByAlice, docByBob].take k)⟩

/-- An LLM that answers with a filter on `author`, a key outside the
default configured metadata fields. -/
def llmAuthor : LLMClient := ⟨fun _ => .ok "\x7b\"author\": \"alice\"\x7d"⟩

/-- The default `metadata_fields` configuration. -/
def defaultFields : List String := ["source", "page", "type", "date"]

/-- An LLM scoring the three documents of `vsUp` with strictly decreasing
relevance (9, 7, 2) for the query `"qq"`. -/
def llmScoresDown : LLMClient :=
  ⟨fun p =>
    if p = rerankPrompt "qq" wDoc1 then .ok "9"
    else if p = rerankPrompt "qq" wDoc2 then .ok "7"
    else .ok "2"⟩

/-- An LLM scoring the three documents of `vsUp` with strictly increasing
relevance (2, 7, 9) for the query `"qq"`. -/
def llmScoresUp : LLMClient :=
  ⟨fun p =>
    if p = rerankPrompt "qq" wDoc1 then .ok "2"
    else if p = rerankPrompt "qq" wDoc2 then .ok "7"
    else .ok "9"⟩

/-- An LLM whose answer is not a number. -/
def llmGibberish : LLMClient := ⟨fun _ => .ok "very relevant!"⟩

/-- A strategy constructor that accepts its keyword arguments. -/
def ctorOk : StrategyKind → Except String Unit := fun _ => .ok ()

/-- A strategy constructor that raises (e.g. unexpected keyword argument). -/
def ctorBad : StrategyKind → Except String Unit := fun _ => .error "TypeError"

/-- A document whose content is 100 `a` characters followed by `x`. -/
def longDocX : Document :=
  ⟨String.mk (List.replicate 100 'a') ++ "x", []⟩

/-- A document whose content is 100 `a` characters followed by `y`: same
fingerprint as `longDocX`, different full content. -/
def longDocY : Document :=
  ⟨String.mk (List.replicate 100 'a') ++ "y", []⟩

/-! Properties of the stable descending sort. -/

theorem insertDesc_perm {α β : Type} [LinearOrder β] (key : α → β) (a : α) (l : List α) :
    (insertDesc key a l).Perm (a :: l) := by
  induction l with
  | nil => simp [insertDesc]
  | cons b bs ih =>
    by_cases h : key a < key b
    · simp only [insertDesc, if_pos h]
      exact (ih.cons b).trans (List.Perm.swap a b bs)
    · simp [insertDesc, if_neg h]

theorem sortDesc_perm {α β : Type} [LinearOrder β] (key : α → β) (l : List α) :
    (sortDesc key l).Perm l := by
  induction l with
  | nil => simp [sortDesc]
  | cons a l' ih => exact (insertDesc_perm key a (sortDesc key l')).trans (ih.cons a)

theorem mem_insertDesc {α β : Type} [LinearOrder β] {key : α → β} {a x : α} {l : List α} :
    x ∈ insertDesc key a l ↔ x = a ∨ x ∈ l := by
  rw [(insertDesc_perm key a l).mem_iff, List.mem_cons]

theorem insertDesc_pairwise {α β : Type} [LinearOrder β] {key : α → β} {a : α} {l : List α}
    (h : l.Pairwise (fun x y => key y ≤ key x)) :
    (insertDesc key a l).Pairwise (fun x y => key y ≤ key x) := by
  induction l with
  | nil => simp [insertDesc]
  | cons b bs ih =>
    rw [List.pairwise_cons] at h
    by_cases hab : key a < key b
    · simp only [insertDesc, if_pos hab]
      rw [List.pairwise_cons]
      refine ⟨fun c hc => ?_, ih h.2⟩
      rcases mem_insertDesc.1 hc with rfl | hc'
      · exact le_of_lt hab
      · exact h.1 c hc'
    · simp only [insertDesc, if_neg hab]
      rw [List.pairwise_cons]
      refine ⟨fun c hc => ?_, List.pairwise_cons.2 h⟩
      rcases List.mem_cons.1 hc with rfl | hc'
      · exact not_lt.1 hab
      · exact le_trans (h.1 c hc') (not_lt.1 hab)

theorem sortDesc_pairwise {α β : Type} [LinearOrder β] (key : α → β) (l : List α) :
    (sortDesc key l).Pairwise (fun x y => key y ≤ key x) := by
  induction l with
  | nil => simp [sortDesc]
  | cons a l' ih => exact insertDesc_pairwise ih

theorem sortDesc_eq_self {α β : Type} [LinearOrder β] {key : α → β} {l : List α}
    (h : l.Pairwise (fun x y => key y ≤ key x)) : sortDesc key l = l := by
  induction l with
  | nil => rfl
  | cons a l' ih =>
    rw [List.pairwise_cons] at h
    rw [sortDesc, ih h.2]
    cases l' with
    | nil => rfl
    | cons b bs =>
      have hb : ¬ key a < key b := not_lt.2 (h.1 b (by simp))
      simp [insertDesc, hb]

theorem insertDesc_append {α β : Type} [LinearOrder β] {key : α → β} {a : α} {l : List α}
    (h : ∀ b ∈ l, key a < key b) : insertDesc key a l = l ++ [a] := by
  induction l with
  | nil => rfl
  | cons b bs ih =>
    simp only [insertDesc, if_pos (h b (by simp))]
    rw [ih (fun c hc => h c (by simp [hc]))]
    simp

theorem sortDesc_eq_reverse {α β : Type} [LinearOrder β] {key : α → β} {l : List α}
    (h : l.Pairwise (fun x y => key x < key y)) : sortDesc key l = l.reverse := by
  induction l with
  | nil => rfl
  | cons a l' ih =>
    rw [List.pairwise_cons] at h
    rw [sortDesc, ih h.2, insertDesc_append (fun b hb => h.1 b (List.mem_reverse.1 hb)),
      List.reverse_cons]

/-! Properties of the `doc_dict` merge loop. -/

theorem keyCount_cons (key : String) (d : Document) (ds : List Document) :
    keyCount key (d :: ds) = keyCount key ds + (if fp d = key then 1 else 0) := by
  simp [keyCount, List.countP_cons]

theorem mem_of_mem_newFirsts {seen : List String} {docs : List Document} {d : Document}
    (h : d ∈ newFirsts seen docs) : d ∈ docs := by
  induction docs generalizing seen with
  | nil => simp [newFirsts] at h
  | cons x xs ih =>
    by_cases hx : fp x ∈ seen
    · simp only [newFirsts, if_pos hx] at h
      exact List.mem_cons_of_mem x (ih h)
    · simp only [newFirsts, if_neg hx] at h
      rcases List.mem_cons.1 h with rfl | h'
      · exact List.mem_cons_self d xs
      · exact List.mem_cons_of_mem x (ih h')

theorem fp_not_mem_of_mem_newFirsts {seen : List String} {docs : List Document} {d : Document}
    (h : d ∈ newFirsts seen docs) : fp d ∉ seen := by
  induction docs generalizing seen with
  | nil => simp [newFirsts] at h
  | cons x xs ih =>
    by_cases hx : fp x ∈ seen
    · simp only [newFirsts, if_pos hx] at h
      exact ih h
    · simp only [newFirsts, if_neg hx] at h
      rcases List.mem_cons.1 h with rfl | h'
      · exact hx
      · exact fun hc => ih h' (List.mem_cons_of_mem _ hc)

theorem newFirsts_seen_congr {s₁ s₂ : List String} (docs : List Document)
    (h : ∀ x, x ∈ s₁ ↔ x ∈ s₂) : newFirsts s₁ docs = newFirsts s₂ docs := by
  induction docs generalizing s₁ s₂ with
  | nil => rfl
  | cons x xs ih =>
    by_cases hx : fp x ∈ s₁
    · simp only [newFirsts, if_pos hx, if_pos ((h _).1 hx)]
      exact ih h
    · simp only [newFirsts, if_neg hx, if_neg (fun hc => hx ((h _).2 hc))]
      refine congrArg _ (ih fun y => ?_)
      simp [List.mem_cons, h y]

theorem newFirsts_eq_nil {seen : List String} {docs : List Document}
    (h : ∀ d ∈ docs, fp d ∈ seen) : newFirsts seen docs = [] := by
  induction docs with
  | nil => rfl
  | cons x xs ih =>
    simp only [newFirsts, if_pos (h x (by simp))]
    exact ih fun d hd => h d (by simp [hd])

theorem newFirsts_eq_self {seen : List String} {docs : List Document}
    (hnd : (docs.map fp).Nodup) (h : ∀ d ∈ docs, fp d ∉ seen) : newFirsts seen docs = docs := by
  induction docs generalizing seen with
  | nil => rfl
  | cons x xs ih =>
    simp only [List.map_cons, List.nodup_cons] at hnd
    simp only [newFirsts, if_neg (h x (by simp))]
    refine congrArg _ (ih hnd.2 fun d hd => ?_)
    intro hc
    rcases List.mem_cons.1 hc with hc' | hc'
    · exact hnd.1 (hc' ▸ List.mem_map_of_mem fp hd)
    · exact h d (by simp [hd]) hc'

theorem foldl_dictAdd {β : Type} (upd : β → β) (mk : β) (docs : List Document)
    (D : List (DictEntry β)) :
    docs.foldl (dictAdd upd mk) D =
      D.map (fun e => { e with val := upd^[keyCount e.key docs] e.val })
      ++ (newFirsts (D.map (fun e => e.key)) docs).map
          (fun d => ⟨fp d, d, upd^[keyCount (fp d) docs - 1] mk⟩) := by
  induction docs generalizing D with
  | nil =>
    simp only [List.foldl_nil, newFirsts, List.map_nil, List.append_nil, keyCount,
      List.countP_nil, Function.iterate_zero, id]
    exact (List.map_id _).symm
  | cons d ds ih =>
    rw [List.foldl_cons]
    by_cases h : D.any (fun e => e.key == fp d) = true
    · -- the fingerprint of `d` is already a key of the dictionary
      have hmem : fp d ∈ D.map (fun e => e.key) := by
        rcases List.any_eq_true.1 h with ⟨e, he, hk⟩
        exact List.mem_map.2 ⟨e, he, beq_iff_eq.1 hk⟩
      rw [show dictAdd upd mk D d =
            D.map (fun e => if e.key = fp d then { e with val := upd e.val } else e) by
          simp only [dictAdd, if_pos h]]
      rw [ih, List.map_map, List.map_map]
      have hkeys : ((fun e : DictEntry β => e.key) ∘
          fun e : DictEntry β => if e.key = fp d then { e with val := upd e.val } else e) =
          fun e : DictEntry β => e.key := by
        funext e
        by_cases hc : e.key = fp d
        · rw [Function.comp_apply, if_pos hc]
        · rw [Function.comp_apply, if_neg hc]
      rw [hkeys]
      rw [show newFirsts (D.map fun e : DictEntry β => e.key) (d :: ds) =
            newFirsts (D.map fun e : DictEntry β => e.key) ds by
          simp only [newFirsts, if_pos hmem]]
      refine congrArg₂ (· ++ ·) ?_ ?_
      · apply List.map_congr_left
        intro e _
        by_cases hc : e.key = fp d
        · rw [Function.comp_apply, if_pos hc]
          show ({ key := e.key, doc := e.doc, val := upd^[keyCount e.key ds] (upd e.val) } :
            DictEntry β) = _
          rw [keyCount_cons, if_pos hc.symm, Function.iterate_succ_apply]
        · rw [Function.comp_apply, if_neg hc]
          rw [keyCount_cons, if_neg (fun hc' => hc hc'.symm), Nat.add_zero]
      · apply List.map_congr_left
        intro d' hd'
        have hne : fp d' ≠ fp d := by
          intro hc
          exact fp_not_mem_of_mem_newFirsts hd' (by rw [hc]; exact hmem)
        rw [keyCount_cons, if_neg (fun hc => hne hc.symm), Nat.add_zero]
    · -- the fingerprint of `d` is new: a fresh entry is appended
      have hnotmem : fp d ∉ D.map (fun e : DictEntry β => e.key) := by
        intro hc
        rcases List.mem_map.1 hc with ⟨e, he, hk⟩
        exact h (List.any_eq_true.2 ⟨e, he, beq_iff_eq.2 hk⟩)
      rw [show dictAdd upd mk D d = D ++ [⟨fp d, d, mk⟩] by
          simp only [dictAdd, if_neg h]]
      rw [ih, List.map_append, List.map_append]
      simp only [List.map_cons, List.map_nil]
      rw [@newFirsts_seen_congr ((D.map fun e : DictEntry β => e.key) ++ [fp d])
        (fp d :: (D.map fun e : DictEntry β => e.key)) ds
        (by intro y; simp [List.mem_append, List.mem_cons, or_comm])]
      rw [show newFirsts (D.map fun e : DictEntry β => e.key) (d :: ds) =
            d :: newFirsts (fp d :: (D.map fun e : DictEntry β => e.key)) ds by
          simp only [newFirsts, if_neg hnotmem]]
      rw [List.append_assoc, List.map_cons, List.singleton_append]
      refine congrArg₂ (· ++ ·) ?_ (congrArg₂ List.cons ?_ ?_)
      · apply List.map_congr_left
        intro e he
        have hne : e.key ≠ fp d := by
          intro hc
          exact hnotmem (by rw [← hc]; exact List.mem_map_of_mem (fun e : DictEntry β => e.key) he)
        rw [keyCount_cons, if_neg (fun hc => hne hc.symm), Nat.add_zero]
      · show ({ key := fp d, doc := d, val := upd^[keyCount (fp d) ds] mk } : DictEntry β) = _
        rw [keyCount_cons, if_pos rfl, Nat.add_sub_cancel]
      · apply List.map_congr_left
        intro d' hd'
        have hne : fp d' ≠ fp d := by
          intro hc
          exact fp_not_mem_of_mem_newFirsts hd' (by rw [hc]; exact List.mem_cons_self _ _)
        rw [keyCount_cons, if_neg (fun hc => hne hc.symm), Nat.add_zero]

theorem keyCount_eq_count (key : String) (docs : List Document) :
    keyCount key docs = List.count key (docs.map fp) := by
  rw [List.count, List.countP_map]
  rfl

theorem sortDesc_length {α β : Type} [LinearOrder β] (key : α → β) (l : List α) :
    (sortDesc key l).length = l.length :=
  (sortDesc_perm key l).length_eq

theorem mem_sortDesc {α β : Type} [LinearOrder β] {key : α → β} {x : α} {l : List α} :
    x ∈ sortDesc key l ↔ x ∈ l :=
  (sortDesc_perm key l).mem_iff

theorem foldl_dictAdd_nil {β : Type} (upd : β → β) (mk : β) (docs : List Document)
    (hnd : (docs.map fp).Nodup) :
    docs.foldl (dictAdd upd mk) [] = docs.map (fun d => ⟨fp d, d, mk⟩) := by
  rw [foldl_dictAdd]
  simp only [List.map_nil, List.nil_append]
  rw [newFirsts_eq_self hnd (by simp)]
  apply List.map_congr_left
  intro d hd
  rw [keyCount_eq_count, List.count_eq_one_of_mem hnd (List.mem_map_of_mem fp hd)]
  simp

theorem hybridDict_val (sw kw : ℚ) {sem kws : List Document}
    (hnds : (sem.map fp).Nodup) (hndk : (kws.map fp).Nodup) :
    ∀ e ∈ hybridDict sw kw sem kws,
      e.key = fp e.doc ∧
      e.val = (if e.key ∈ sem.map fp then sw else 0) + (if e.key ∈ kws.map fp then kw else 0) ∧
      (e.key ∈ sem.map fp ∨ e.key ∈ kws.map fp) := by
  intro e he
  rw [hybridDict, foldl_dictAdd_nil _ _ _ hnds, foldl_dictAdd] at he
  have hkeys : ((sem.map fun d => (⟨fp d, d, sw⟩ : DictEntry ℚ)).map fun e => e.key) =
      sem.map fp := by
    rw [List.map_map]
    rfl
  rcases List.mem_append.1 he with h1 | h2
  · rcases List.mem_map.1 h1 with ⟨e', he', rfl⟩
    rcases List.mem_map.1 he' with ⟨d, hd, rfl⟩
    have hsem : fp d ∈ sem.map fp := List.mem_map_of_mem fp hd
    by_cases hm : fp d ∈ kws.map fp
    · rw [show keyCount (⟨fp d, d, sw⟩ : DictEntry ℚ).key kws = 1 by
        rw [keyCount_eq_count]
        exact List.count_eq_one_of_mem hndk hm]
      refine ⟨rfl, ?_, Or.inl hsem⟩
      simp [hsem, hm]
    · rw [show keyCount (⟨fp d, d, sw⟩ : DictEntry ℚ).key kws = 0 by
        rw [keyCount_eq_count]
        exact List.count_eq_zero.2 hm]
      refine ⟨rfl, ?_, Or.inl hsem⟩
      simp [hsem, hm]
  · rw [hkeys] at h2
    rcases List.mem_map.1 h2 with ⟨d, hd, rfl⟩
    have hdk : d ∈ kws := mem_of_mem_newFirsts hd
    have hnot : fp d ∉ sem.map fp := fp_not_mem_of_mem_newFirsts hd
    have hm : fp d ∈ kws.map fp := List.mem_map_of_mem fp hdk
    rw [show keyCount (fp d) kws = 1 by
      rw [keyCount_eq_count]
      exact List.count_eq_one_of_mem hndk hm]
    refine ⟨rfl, ?_, Or.inr hm⟩
    simp [hnot, hm]

theorem hybridDict_docs (sw kw : ℚ) (sem kws : List Document) :
    (hybridDict sw kw sem kws).map (fun e => e.doc) =
      newFirsts [] sem ++ newFirsts ((newFirsts [] sem).map fp) kws := by
  rw [hybridDict, foldl_dictAdd, foldl_dictAdd]
  simp only [List.map_nil, List.nil_append, List.map_append, List.map_map]
  exact congrArg₂ (· ++ ·) (List.map_id _) (List.map_id _)

theorem pairwise_of_all {α : Type} {R : α → α → Prop} (h : ∀ a b, R a b) (l : List α) :
    l.Pairwise R := by
  induction l with
  | nil => exact List.Pairwise.nil
  | cons a l ih => exact List.Pairwise.cons (fun b _ => h a b) ih

/-- Claim C2, amended: when the baseline `similarity_search(q, k)` raises,
`SemanticRetriever.retrieve` does not propagate the failure to its caller:
the exception is caught, logged, and an empty list is silently returned. -/
theorem C2_semantic_masks_search_failure (vs : VectorStore) (q : String) (k : ℕ) (e : String)
    (h : vs.similarity_search q k = .error e) : semanticRetrieve vs q k = .ok [] := by
  simp only [semanticRetrieve, h]

/-- Claim C2 counterexample: on a store whose similarity search raises,
`SemanticRetriever.retrieve` returns `ok []` — it masks the failure with a
silent empty list instead of surfacing a hard error. -/
theorem C2_search_failure_returns_empty_cex :
    vsDown.similarity_search "q" 3 = .error "service unavailable" ∧
    semanticRetrieve vsDown "q" 3 = .ok [] :=
  ⟨rfl, rfl⟩

theorem C2_semantic_masks_search_failure_witness : semanticRetrieve vsDown "q" 3 = .ok [] :=
  C2_semantic_masks_search_failure vsDown "q" 3 "service unavailable" rfl

/-- Claim C9, amended: with no BM25 index built, `HybridRetriever.retrieve`
returns exactly the Semantic result whenever the underlying similarity
search succeeds; but when the search raises, Hybrid propagates the
exception while Semantic catches it and returns an empty list, so the
two differ in the raising case. -/
theorem C9_hybrid_fallback_refines_semantic (vs : VectorStore) (sw : ℚ) (q : String) (k : ℕ) :
    (∀ docs, vs.similarity_search q k = .ok docs →
      hybridRetrieve vs none sw q k = semanticRetrieve vs q k ∧
      hybridRetrieve vs none sw q k = .ok docs) ∧
    (∀ e, vs.similarity_search q k = .error e →
      hybridRetrieve vs none sw q k = .error e ∧ semanticRetrieve vs q k = .ok []) := by
  constructor
  · intro docs h
    constructor
    · simp only [hybridRetrieve, semanticRetrieve, h]
    · simp only [hybridRetrieve, h]
  · intro e h
    constructor
    · simp only [hybridRetrieve, h]
    · simp only [semanticRetrieve, h]

/-- Claim C9 counterexample: when the similarity search raises, Hybrid
without a BM25 index propagates the error, while Semantic returns `ok []`
— the two outputs are not identical. -/
theorem C9_error_propagation_differs_cex :
    hybridRetrieve vsDown none (3/5) "q" 3 = .error "service unavailable" ∧
    semanticRetrieve vsDown "q" 3 = .ok [] ∧
    (Except.error "service unavailable" : Except String (List Document)) ≠ .ok [] :=
  ⟨rfl, rfl, by simp⟩

theorem C9_hybrid_fallback_refines_semantic_witness :
    hybridRetrieve vsUp none (3/5) "q" 2 = semanticRetrieve vsUp "q" 2 ∧
    hybridRetrieve vsDown none (3/5) "q" 2 = .error "service unavailable" :=
  ⟨((C9_hybrid_fallback_refines_semantic vsUp (3/5) "q" 2).1 [wDoc1, wDoc2] rfl).1,
   ((C9_hybrid_fallback_refines_semantic vsDown (3/5) "q" 2).2 "service unavailable" rfl).1⟩

/-- Claim C4: strategy construction never fails the caller.  The factory
resolves identifiers case-insensitively (the registry is consulted with
the lowercased name), an unknown identifier yields the Semantic class
(succeeding whenever the Semantic constructor accepts the arguments), and
when the chosen constructor raises, `RetrieverManager.initialize_strategy`
activates Semantic and records `"semantic"` — the manager always ends up
with an active strategy. -/
theorem C4_factory_manager_never_fail (ctor : StrategyKind → Except String Unit)
    (name : String) (st : ManagerState) :
    (∀ n₁ n₂ : String, lowerAscii n₁ = lowerAscii n₂ → factoryCreateKind n₁ = factoryCreateKind n₂) ∧
    (strategyLookup (lowerAscii name) = none → factoryCreateKind name = .semantic) ∧
    (strategyLookup (lowerAscii name) = none → ctor .semantic = .ok () →
      factoryCreate ctor name = .ok .semantic) ∧
    ((initStrategy ctor name st).retriever.isSome = true) ∧
    (∀ e, ctor (factoryCreateKind name) = .error e →
      initStrategy ctor name st =
        { retriever := some .semantic, current_strategy := some "semantic" }) ∧
    (∀ u : Unit, ctor (factoryCreateKind name) = .ok u →
      initStrategy ctor name st =
        { retriever := some (factoryCreateKind name), current_strategy := some name }) := by
  have hsem : ∀ h : strategyLookup (lowerAscii name) = none, factoryCreateKind name = .semantic := by
    intro h
    rw [factoryCreateKind, h]
    rfl
  refine ⟨?_, hsem, ?_, ?_, ?_, ?_⟩
  · intro n₁ n₂ h
    rw [factoryCreateKind, factoryCreateKind, h]
  · intro h hs
    rw [factoryCreate, hsem h, hs]
  · cases hcf : factoryCreate ctor name with
    | ok kind => simp [initStrategy, hcf]
    | error e => simp [initStrategy, hcf]
  · intro e he
    simp only [initStrategy, factoryCreate, he]
  · intro u he
    simp only [initStrategy, factoryCreate, he]

theorem C4_factory_manager_never_fail_witness :
    factoryCreateKind "SEMANTIC" = factoryCreateKind "Semantic" ∧
    factoryCreateKind "warp_drive" = .semantic ∧
    factoryCreate ctorOk "warp_drive" = .ok .semantic ∧
    (initStrategy ctorBad "hybrid" ⟨none, none⟩).retriever.isSome = true ∧
    initStrategy ctorBad "hybrid" ⟨none, none⟩ =
      { retriever := some .semantic, current_strategy := some "semantic" } ∧
    initStrategy ctorOk "hybrid" ⟨none, none⟩ =
      { retriever := some (factoryCreateKind "hybrid"), current_strategy := some "hybrid" } := by
  refine ⟨(C4_factory_manager_never_fail ctorOk "SEMANTIC" ⟨none, none⟩).1 "SEMANTIC" "Semantic"
      (by decide), ?_, ?_, ?_, ?_, ?_⟩
  · exact (C4_factory_manager_never_fail ctorOk "warp_drive" ⟨none, none⟩).2.1 (by decide)
  · exact (C4_factory_manager_never_fail ctorOk "warp_drive" ⟨none, none⟩).2.2.1 (by decide) rfl
  · exact (C4_factory_manager_never_fail ctorBad "hybrid" ⟨none, none⟩).2.2.2.1
  · exact (C4_factory_manager_never_fail ctorBad "hybrid" ⟨none, none⟩).2.2.2.2.1 "TypeError" rfl
  · exact (C4_factory_manager_never_fail ctorOk "hybrid" ⟨none, none⟩).2.2.2.2.2 () rfl

theorem vsUp_bounded : vsUp.Bounded := by
  intro q k docs h
  cases h
  rw [List.length_take]
  exact min_le_left _ _

/-- Claim C1, amended: for every strategy, `retrieve(q, k)` returns at
most `k` passages when the vector index honours its `≤ k` contract;
however, fewer than `k` can be returned even when the index yields `k`
distinct candidates (Self-Query filtering discards non-matching
candidates without triggering the fallback, which fires only when all
candidates are discarded). -/
theorem C1_retrieve_length_le_k (s : StrategyConf) (vs : VectorStore) (q : String) (k : ℕ)
    (hb : vs.Bounded) (hk : 1 ≤ k) (docs : List Document)
    (hres : s.retrieve vs q k = .ok docs) : docs.length ≤ k := by
  cases s with
  | semantic =>
    simp only [StrategyConf.retrieve, semanticRetrieve] at hres
    split at hres
    · rename_i ds hs
      cases hres
      exact hb q k _ hs
    · cases hres
      simp
  | hybrid bm25 sw =>
    cases bm25 with
    | none =>
      simp only [StrategyConf.retrieve, hybridRetrieve] at hres
      split at hres
      · rename_i ds hs
        cases hres
        exact hb q k _ hs
      · rename_i e hs
        rw [hs] at hres
        simp at hres
    | some bm =>
      simp only [StrategyConf.retrieve, hybridRetrieve] at hres
      split at hres
      · rename_i e hs
        rw [hs] at hres
        simp at hres
      · cases hres
        rw [List.length_map, List.length_take]
        exact min_le_left _ _
  | query_expansion llm ec =>
    simp only [StrategyConf.retrieve, queryExpansionRetrieve] at hres
    split at hres
    · exact hb q k docs hres
    · cases hres
      rw [List.length_map, List.length_take]
      exact min_le_left _ _
  | reranking llm rtk =>
    simp only [StrategyConf.retrieve, rerankingRetrieve] at hres
    split at hres
    · exact hb q k docs hres
    · split at hres
      · cases hres
        simp
      · cases hres
        rw [List.length_map, List.length_take]
        exact min_le_left _ _
  | self_query llm fields jp =>
    simp only [StrategyConf.retrieve, selfQueryRetrieve] at hres
    split at hres
    · rename_i e hs
      rw [hs] at hres
      simp at hres
    · cases hres
      rw [List.length_take]
      exact min_le_left _ _
  | multihop llm mh =>
    simp only [StrategyConf.retrieve, multiHopRetrieve] at hres
    split at hres
    · exact hb q k docs hres
    · cases hres
      rw [List.length_map, List.length_take]
      exact min_le_left _ _

/-- Claim C1 counterexample to the "fewer than k only when the indices
yield fewer distinct candidates" clause: the Self-Query strategy returns
a single passage for `k = 3` although the similarity search yielded three
candidates with pairwise distinct fingerprints — the metadata filter
discarded the other two. -/
theorem C1_self_query_filter_below_k_cex :
    (StrategyConf.self_query (some llmTypeManual) defaultFields jpDemo).retrieve vsTyped "q" 3 =
      .ok [docManual] ∧
    vsTyped.similarity_search "q" 3 = .ok [docManual, docSpecA, docSpecB] ∧
    ([docManual, docSpecA, docSpecB].map fp).Nodup ∧
    ([docManual] : List Document).length < 3 := by
  refine ⟨?_, rfl, by decide, by decide⟩
  rfl

theorem C1_retrieve_length_le_k_witness : ([wDoc1, wDoc2] : List Document).length ≤ 2 :=
  C1_retrieve_length_le_k .semantic vsUp "q" 2 vsUp_bounded (by decide) [wDoc1, wDoc2] rfl

/-- Claim C10: in every merging strategy the deduplication key is the
first 100 characters of the passage content, and a fingerprint collision
keeps the first-discovered document: a colliding later document only
updates the stored value (score `+ w`, occurrence count `+ 1`, or hop
list append — the `upd` of the respective strategy) and is itself
discarded, while a fresh fingerprint appends a new entry; consequently
the Hybrid merge dictionary holds exactly the first-discovered document
of each fingerprint. -/
theorem C10_fingerprint_first_discovery :
    (∀ d : Document, fp d = takeChars 100 d.page_content) ∧
    (∀ (β : Type) (upd : β → β) (mk : β) (dict : List (DictEntry β)) (d : Document),
      dict.any (fun e => e.key == fp d) = true →
        dictAdd upd mk dict d =
          dict.map (fun e => if e.key = fp d then { e with val := upd e.val } else e) ∧
        (dictAdd upd mk dict d).map (fun e => e.doc) = dict.map (fun e => e.doc) ∧
        (dictAdd upd mk dict d).map (fun e => e.key) = dict.map (fun e => e.key)) ∧
    (∀ (β : Type) (upd : β → β) (mk : β) (dict : List (DictEntry β)) (d : Document),
      ¬ dict.any (fun e => e.key == fp d) = true →
        dictAdd upd mk dict d = dict ++ [⟨fp d, d, mk⟩]) ∧
    (∀ (sw kw : ℚ) (sem kws : List Document),
      (hybridDict sw kw sem kws).map (fun e => e.doc) =
        newFirsts [] sem ++ newFirsts ((newFirsts [] sem).map fp) kws) := by
  refine ⟨fun d => rfl, ?_, ?_, hybridDict_docs⟩
  · intro β upd mk dict d h
    have h1 : dictAdd upd mk dict d =
        dict.map (fun e => if e.key = fp d then { e with val := upd e.val } else e) := by
      simp only [dictAdd, if_pos h]
    refine ⟨h1, ?_, ?_⟩
    · rw [h1, List.map_map]
      apply List.map_congr_left
      intro e _
      by_cases hc : e.key = fp d
      · rw [Function.comp_apply, if_pos hc]
      · rw [Function.comp_apply, if_neg hc]
    · rw [h1, List.map_map]
      apply List.map_congr_left
      intro e _
      by_cases hc : e.key = fp d
      · rw [Function.comp_apply, if_pos hc]
      · rw [Function.comp_apply, if_neg hc]
  · intro β upd mk dict d h
    simp only [dictAdd, if_neg h]

theorem C10_fingerprint_first_discovery_witness :
    dictAdd (· + (2 : ℚ)/5) (2/5) [⟨fp longDocX, longDocX, 3/5⟩] longDocY =
      [⟨fp longDocX, longDocX, 3/5 + 2/5⟩] ∧
    (dictAdd (· + (2 : ℚ)/5) (2/5) [⟨fp longDocX, longDocX, 3/5⟩] longDocY).map
      (fun e => e.doc) = [longDocX] ∧
    longDocX ≠ longDocY ∧ fp longDocX = fp longDocY := by
  have h := (C10_fingerprint_first_discovery.2.1 ℚ (· + 2/5) (2/5)
    [⟨fp longDocX, longDocX, 3/5⟩] longDocY (by decide))
  refine ⟨?_, ?_, by decide, by decide⟩
  · rw [h.1]
    have hfp : fp longDocX = fp longDocY := by decide
    simp [hfp]
  · rw [h.2.1]
    rfl

/-- Claim C7: with a non-empty extracted filter, a candidate is discarded
exactly when some filter key is present in its metadata with a different
value (absent keys never disqualify); if filtering discards every
candidate the unfiltered results are used, so the result is non-empty
whenever the unfiltered search returned candidates (and `k ≥ 1`); the
returned list is the first `k` of whichever set is used. -/
theorem C7_self_query_filtering (vs : VectorStore) (llm : Option LLMClient)
    (fields : List String) (jp : String → Option (List (String × MValue))) (q : String) (k : ℕ)
    (filters : List (String × MValue)) (docs : List Document)
    (hf : extractFilters jp llm fields q = filters) (hne : filters ≠ [])
    (hok : vs.similarity_search q k = .ok docs) (hk : 1 ≤ k) :
    selfQueryRetrieve vs llm fields jp q k =
      .ok ((if (docs.filter (fun d => matchesFilter filters d)).isEmpty then docs
            else docs.filter (fun d => matchesFilter filters d)).take k) ∧
    (∀ d : Document, matchesFilter filters d = false ↔
      ∃ kv ∈ filters, ∃ w, d.metadata.lookup kv.1 = some w ∧ w ≠ kv.2) ∧
    (docs ≠ [] → ∃ res, selfQueryRetrieve vs llm fields jp q k = .ok res ∧ res ≠ []) := by
  have hfe : filters.isEmpty = false := by
    cases filters with
    | nil => exact absurd rfl hne
    | cons a l => rfl
  have h1 : selfQueryRetrieve vs llm fields jp q k =
      .ok ((if (docs.filter (fun d => matchesFilter filters d)).isEmpty then docs
            else docs.filter (fun d => matchesFilter filters d)).take k) := by
    simp only [selfQueryRetrieve, hf, hok, hfe, Bool.false_eq_true, if_false]
  refine ⟨h1, ?_, ?_⟩
  · intro d
    rw [matchesFilter, List.all_eq_false]
    constructor
    · rintro ⟨kv, hkv, hfail⟩
      refine ⟨kv, hkv, ?_⟩
      cases hl : d.metadata.lookup kv.1 with
      | none =>
        rw [hl] at hfail
        exact absurd rfl hfail
      | some w =>
        rw [hl] at hfail
        exact ⟨w, rfl, by simpa using hfail⟩
    · rintro ⟨kv, hkv, w, hl, hwne⟩
      refine ⟨kv, hkv, ?_⟩
      rw [hl]
      simpa using hwne
  · intro hdocs
    refine ⟨_, h1, ?_⟩
    intro hnil
    rw [List.take_eq_nil_iff] at hnil
    rcases hnil with hnil | hnil
    · omega
    · by_cases hemp : (docs.filter (fun d => matchesFilter filters d)).isEmpty
      · rw [if_pos hemp] at hnil
        exact hdocs hnil
      · rw [if_neg hemp] at hnil
        rw [hnil] at hemp
        exact hemp rfl

theorem C7_self_query_filtering_witness :
    selfQueryRetrieve vsTyped (some llmTypeManual) defaultFields jpDemo "q" 3 = .ok [docManual] ∧
    (matchesFilter [("type", MValue.s "manual")] docSpecA = false ↔
      ∃ kv ∈ [("type", MValue.s "manual")], ∃ w,
        docSpecA.metadata.lookup kv.1 = some w ∧ w ≠ kv.2) := by
  have h := C7_self_query_filtering vsTyped (some llmTypeManual) defaultFields jpDemo "q" 3
    [("type", MValue.s "manual")] [docManual, docSpecA, docSpecB] rfl (by decide) rfl (by decide)
  refine ⟨?_, h.2.1 docSpecA⟩
  rw [h.1]
  rfl

/-- Claim C8 counterexample: the LLM answers with the filter
`{"author": "alice"}` although `author` is not among the configured
metadata fields; the filter is applied anyway and discards the candidate
whose `author` metadata differs — an out-of-set key is used to discard. -/
theorem C8_out_of_set_key_discards_cex :
    vsAuthors.similarity_search "q" 2 = .ok [docByAlice, docByBob] ∧
    selfQueryRetrieve vsAuthors (some llmAuthor) defaultFields jpDemo "q" 2 = .ok [docByAlice] ∧
    ("author" ∈ defaultFields) = False ∧
    extractFilters jpDemo (some llmAuthor) defaultFields "q" = [("author", MValue.s "alice")] := by
  refine ⟨rfl, ?_, by simp [defaultFields], rfl⟩
  rfl

/-- Claim C8, amended: `_extract_filters` returns whatever JSON object the
LLM response parses to, verbatim — no restriction to the configured
metadata fields is enforced (the field list only appears in the prompt
text); a parse failure, a raised LLM call, or an absent LLM yields the
empty filter, and with an empty filter no filtering is applied: the
result is the unfiltered top-`k`. -/
theorem C8_filter_keys_unrestricted :
    (∀ (jp : String → Option (List (String × MValue))) (fields : List String) (q content : String)
      (obj : List (String × MValue)) (c : LLMClient),
      c.invoke (selfQueryPrompt fields q) = .ok content → jp (stripChars content) = some obj →
      extractFilters jp (some c) fields q = obj) ∧
    (∀ (jp : String → Option (List (String × MValue))) (fields : List String) (q content : String)
      (c : LLMClient),
      c.invoke (selfQueryPrompt fields q) = .ok content → jp (stripChars content) = none →
      extractFilters jp (some c) fields q = []) ∧
    (∀ (jp : String → Option (List (String × MValue))) (fields : List String) (q : String),
      extractFilters jp none fields q = []) ∧
    (∀ (jp : String → Option (List (String × MValue))) (fields : List String) (q e : String)
      (c : LLMClient),
      c.invoke (selfQueryPrompt fields q) = .error e → extractFilters jp (some c) fields q = []) ∧
    (∀ (vs : VectorStore) (llm : Option LLMClient) (fields : List String)
      (jp : String → Option (List (String × MValue))) (q : String) (k : ℕ)
      (docs : List Document),
      vs.similarity_search q k = .ok docs → extractFilters jp llm fields q = [] →
      selfQueryRetrieve vs llm fields jp q k = .ok (docs.take k)) := by
  refine ⟨?_, ?_, fun jp fields q => rfl, ?_, ?_⟩
  · intro jp fields q content obj c hc hj
    simp only [extractFilters, hc, hj]
  · intro jp fields q content c hc hj
    simp only [extractFilters, hc, hj]
  · intro jp fields q e c hc
    simp only [extractFilters, hc]
  · intro vs llm fields jp q k docs hok hf
    simp only [selfQueryRetrieve, hf, hok, List.isEmpty_nil, if_true]

theorem C8_filter_keys_unrestricted_witness :
    extractFilters jpDemo (some llmAuthor) defaultFields "q" = [("author", MValue.s "alice")] ∧
    extractFilters jpDemo (some llmGibberish) defaultFields "q" = [] ∧
    selfQueryRetrieve vsAuthors (some llmGibberish) defaultFields jpDemo "q" 2 =
      .ok ([docByAlice, docByBob].take 2) := by
  have h2 := C8_filter_keys_unrestricted.2.1 jpDemo defaultFields "q" "very relevant!"
    llmGibberish rfl (by decide)
  refine ⟨?_, h2, ?_⟩
  · exact C8_filter_keys_unrestricted.1 jpDemo defaultFields "q" "\x7b\"author\": \"alice\"\x7d"
      [("author", MValue.s "alice")] llmAuthor rfl (by decide)
  · exact C8_filter_keys_unrestricted.2.2.2.2 vsAuthors (some llmGibberish) defaultFields jpDemo
      "q" 2 [docByAlice, docByBob] rfl h2

/-- Claim C5, amended: when the LLM client is absent or its paraphrase
call raises, the fallback paraphrase list is `[query]` (not `[]`), so the
searched query list is `[query, query]` — two similarity searches are
issued for the original query text, not one; the returned list still
equals the vector index's top-`k` for the original query (its first `k`
results, in order, when their fingerprints are duplicate-free). -/
theorem C5_llm_absent_top_k (vs : VectorStore) (llm : Option LLMClient) (ec : ℕ)
    (q : String) (k : ℕ) (docs : List Document)
    (hpar : generateParaphrases llm ec q = [q])
    (hok : vs.similarity_search q k = .ok docs)
    (hnd : (docs.map fp).Nodup) :
    queryExpansionQueries llm ec q = [q, q] ∧
    queryExpansionRetrieve vs llm ec q k = .ok (docs.take k) ∧
    (∀ (ec' : ℕ) (q' : String), generateParaphrases none ec' q' = [q']) ∧
    (∀ (c : LLMClient) (e : String) (ec' : ℕ) (q' : String),
      c.invoke (expansionPrompt ec' q') = .error e →
      generateParaphrases (some c) ec' q' = [q']) := by
  have hq : queryExpansionQueries llm ec q = [q, q] := by
    rw [queryExpansionQueries, hpar]
  refine ⟨hq, ?_, fun ec' q' => rfl, fun c e ec' q' hc => by simp only [generateParaphrases, hc]⟩
  rw [queryExpansionRetrieve, hq]
  have hfold1 : docs.foldl (dictAdd (· + 1) 1) [] =
      docs.map (fun d => (⟨fp d, d, 1⟩ : DictEntry ℕ)) :=
    foldl_dictAdd_nil _ _ _ hnd
  have hfold2 : docs.foldl (dictAdd (· + 1) 1)
        (docs.map (fun d => (⟨fp d, d, 1⟩ : DictEntry ℕ))) =
      docs.map (fun d => (⟨fp d, d, 2⟩ : DictEntry ℕ)) := by
    rw [foldl_dictAdd]
    rw [newFirsts_eq_nil (fun d hd => by
      rw [List.map_map]
      exact List.mem_map.2 ⟨d, hd, rfl⟩)]
    simp only [List.map_nil, List.append_nil, List.map_map]
    apply List.map_congr_left
    intro d hd
    have hkc : keyCount (fp d) docs = 1 := by
      rw [keyCount_eq_count]
      exact List.count_eq_one_of_mem hnd (List.mem_map_of_mem fp hd)
    simp only [Function.comp_apply, hkc, Function.iterate_one]
  simp only [qeFold, hok]
  rw [hfold1, hfold2]
  rw [sortDesc_eq_self (List.pairwise_map.2 (pairwise_of_all (fun a b => le_refl 2) docs))]
  rw [List.map_take, List.map_map]
  rw [show docs.map ((fun (e : DictEntry ℕ) => e.doc) ∘
      (fun d => (⟨fp d, d, 2⟩ : DictEntry ℕ))) = docs from List.map_id docs]

/-- Claim C5 counterexample: with the LLM absent, the searched query list
is `["q", "q"]` — the original query is searched twice, not once (the
result still equals the index's top-`k`). -/
theorem C5_duplicate_original_query_cex :
    queryExpansionQueries none 3 "q" = ["q", "q"] ∧
    (queryExpansionQueries none 3 "q").length = 2 ∧
    queryExpansionRetrieve vsUp none 3 "q" 2 = .ok [wDoc1, wDoc2] := by
  refine ⟨rfl, rfl, ?_⟩
  rfl

theorem C5_llm_absent_top_k_witness :
    queryExpansionQueries none 3 "q" = ["q", "q"] ∧
    queryExpansionRetrieve vsUp none 3 "q" 2 = .ok ([wDoc1, wDoc2].take 2) := by
  have h := C5_llm_absent_top_k vsUp none 3 "q" 2 [wDoc1, wDoc2] rfl rfl (by decide)
  exact ⟨h.1, h.2.1⟩

/-- Claim C6: the Context Re-Ranking output is the initial pool of size
`rerank_top_k`, stably sorted in descending order of per-candidate LLM
scores clamped into `[0, 10]` (unparsable score 5.0, absent LLM a uniform
1.0 which preserves input order), truncated to the first `k`; the result
is capped by the pool size (never padded), strictly decreasing scores
leave the pool order unchanged, and strictly increasing scores reverse
it. -/
theorem C6_reranking_order (vs : VectorStore) (llm : Option LLMClient) (rtk : ℕ)
    (q : String) (k : ℕ) (pool : List Document)
    (hpool : vs.similarity_search q rtk = .ok pool) :
    rerankingRetrieve vs llm rtk q k =
      .ok (((sortDesc (fun p => p.2) (pool.map (fun d => (d, scoreRelevance llm q d)))).take
        k).map (fun p => p.1)) ∧
    (∀ res, rerankingRetrieve vs llm rtk q k = .ok res →
      res.length ≤ k ∧ res.length ≤ pool.length) ∧
    (llm = none → rerankingRetrieve vs llm rtk q k = .ok (pool.take k)) ∧
    ((pool.map (fun d => scoreRelevance llm q d)).Pairwise (fun a b => b < a) →
      rerankingRetrieve vs llm rtk q k = .ok (pool.take k)) ∧
    ((pool.map (fun d => scoreRelevance llm q d)).Pairwise (fun a b => a < b) →
      rerankingRetrieve vs llm rtk q k = .ok (pool.reverse.take k)) ∧
    (∀ (llm' : Option LLMClient) (q' : String) (d' : Document),
      0 ≤ scoreRelevance llm' q' d' ∧ scoreRelevance llm' q' d' ≤ 10) ∧
    (∀ (c : LLMClient) (q' : String) (d' : Document) (content : String),
      c.invoke (rerankPrompt q' d') = .ok content →
      parseDecimal (stripChars content) = none → scoreRelevance (some c) q' d' = 5) := by
  have h1 : rerankingRetrieve vs llm rtk q k =
      .ok (((sortDesc (fun p => p.2) (pool.map (fun d => (d, scoreRelevance llm q d)))).take
        k).map (fun p => p.1)) := by
    simp only [rerankingRetrieve, hpool]
    cases pool with
    | nil => simp [sortDesc]
    | cons d ds => rfl
  refine ⟨h1, ?_, ?_, ?_, ?_, ?_, ?_⟩
  · intro res hres
    rw [h1] at hres
    cases hres
    constructor
    · rw [List.length_map, List.length_take]
      exact min_le_left _ _
    · rw [List.length_map, List.length_take, sortDesc_length, List.length_map]
      exact min_le_right _ _
  · intro h
    subst h
    rw [h1]
    rw [sortDesc_eq_self (List.pairwise_map.2 (pairwise_of_all (fun a b => le_refl 1) pool))]
    rw [List.map_take, List.map_map]
    rw [show pool.map ((fun (p : Document × ℚ) => p.1) ∘
        (fun d => (d, scoreRelevance none q d))) = pool from List.map_id pool]
  · intro hdec
    rw [h1]
    have hp : (pool.map (fun d => (d, scoreRelevance llm q d))).Pairwise
        (fun p r => r.2 ≤ p.2) := by
      rw [List.pairwise_map]
      exact (List.pairwise_map.1 hdec).imp (fun h => le_of_lt h)
    rw [sortDesc_eq_self hp, List.map_take, List.map_map]
    rw [show pool.map ((fun (p : Document × ℚ) => p.1) ∘
        (fun d => (d, scoreRelevance llm q d))) = pool from List.map_id pool]
  · intro hinc
    rw [h1]
    have hp : (pool.map (fun d => (d, scoreRelevance llm q d))).Pairwise
        (fun p r => p.2 < r.2) := by
      rw [List.pairwise_map]
      exact List.pairwise_map.1 hinc
    rw [sortDesc_eq_reverse hp, ← List.map_reverse, List.map_take, List.map_map]
    rw [show pool.reverse.map ((fun (p : Document × ℚ) => p.1) ∘
        (fun d => (d, scoreRelevance llm q d))) = pool.reverse from List.map_id pool.reverse]
  · intro llm' q' d'
    cases llm' with
    | none =>
      constructor <;> norm_num [scoreRelevance]
    | some c =>
      cases hc : c.invoke (rerankPrompt q' d') with
      | error e =>
        constructor <;> norm_num [scoreRelevance, hc]
      | ok content =>
        cases hp : parseDecimal (stripChars content) with
        | none =>
          constructor <;> norm_num [scoreRelevance, hc, hp]
        | some x =>
          constructor
          · simp only [scoreRelevance, hc, hp]
            exact le_min (le_max_right x 0) (by norm_num)
          · simp only [scoreRelevance, hc, hp]
            exact min_le_right _ _
  · intro c q' d' content hc hp
    simp only [scoreRelevance, hc, hp]

theorem C6_reranking_order_witness :
    rerankingRetrieve vsUp (some llmScoresDown) 3 "qq" 2 = .ok ([wDoc1, wDoc2, wDoc3].take 2) ∧
    rerankingRetrieve vsUp (some llmScoresUp) 3 "qq" 2 =
      .ok ([wDoc1, wDoc2, wDoc3].reverse.take 2) ∧
    rerankingRetrieve vsUp none 3 "qq" 2 = .ok ([wDoc1, wDoc2, wDoc3].take 2) ∧
    scoreRelevance (some llmGibberish) "qq" wDoc1 = 5 :=
  ⟨(C6_reranking_order vsUp (some llmScoresDown) 3 "qq" 2 [wDoc1, wDoc2, wDoc3]
      rfl).2.2.2.1 (by decide),
   (C6_reranking_order vsUp (some llmScoresUp) 3 "qq" 2 [wDoc1, wDoc2, wDoc3]
      rfl).2.2.2.2.1 (by decide),
   (C6_reranking_order vsUp none 3 "qq" 2 [wDoc1, wDoc2, wDoc3] rfl).2.2.1 rfl,
   (C6_reranking_order vsUp (some llmGibberish) 3 "qq" 2 [wDoc1, wDoc2, wDoc3]
      rfl).2.2.2.2.2.2 llmGibberish "qq" wDoc1 "very relevant!" rfl (by decide)⟩

/-- Claim C3: with a built BM25 index and `keyword_weight = 1 -
semantic_weight`, each distinct fingerprint accumulates
`semantic_weight` if it appears among the (fingerprint-duplicate-free)
vector results and `keyword_weight` if it appears among the lexical
results; a passage present in both scores `semantic_weight +
keyword_weight = 1`; when both weights are strictly positive every
consensus passage precedes every single-source passage in the ranking;
and the retrieval returns the top-`k` of the descending sort by
accumulated score. -/
theorem C3_hybrid_rank_fusion (semantic_weight keyword_weight : ℚ)
    (hw : keyword_weight = 1 - semantic_weight)
    (h0 : 0 ≤ semantic_weight) (h1 : semantic_weight ≤ 1)
    (semantic_docs keyword_docs : List Document)
    (hnds : (semantic_docs.map fp).Nodup) (hndk : (keyword_docs.map fp).Nodup) :
    (∀ e ∈ hybridDict semantic_weight keyword_weight semantic_docs keyword_docs,
      e.val = (if e.key ∈ semantic_docs.map fp then semantic_weight else 0)
            + (if e.key ∈ keyword_docs.map fp then keyword_weight else 0)) ∧
    (∀ e ∈ hybridDict semantic_weight keyword_weight semantic_docs keyword_docs,
      e.key ∈ semantic_docs.map fp → e.key ∈ keyword_docs.map fp →
      e.val = semantic_weight + keyword_weight ∧ e.val = 1) ∧
    (0 < semantic_weight → 0 < keyword_weight →
      ∀ (i j : ℕ)
        (hi : i < (sortDesc (fun e => e.val)
          (hybridDict semantic_weight keyword_weight semantic_docs keyword_docs)).length)
        (hj : j < (sortDesc (fun e => e.val)
          (hybridDict semantic_weight keyword_weight semantic_docs keyword_docs)).length),
        (((sortDesc (fun e => e.val)
            (hybridDict semantic_weight keyword_weight semantic_docs keyword_docs)).get
            ⟨i, hi⟩).key ∈ semantic_docs.map fp ∧
         ((sortDesc (fun e => e.val)
            (hybridDict semantic_weight keyword_weight semantic_docs keyword_docs)).get
            ⟨i, hi⟩).key ∈ keyword_docs.map fp) →
        ¬(((sortDesc (fun e => e.val)
            (hybridDict semantic_weight keyword_weight semantic_docs keyword_docs)).get
            ⟨j, hj⟩).key ∈ semantic_docs.map fp ∧
          ((sortDesc (fun e => e.val)
            (hybridDict semantic_weight keyword_weight semantic_docs keyword_docs)).get
            ⟨j, hj⟩).key ∈ keyword_docs.map fp) →
        i < j) ∧
    (∀ (vs : VectorStore) (bm : String → List Document) (q : String) (k : ℕ),
      vs.similarity_search q k = .ok semantic_docs → (bm q).take k = keyword_docs →
      hybridRetrieve vs (some bm) semantic_weight q k =
        .ok (((sortDesc (fun e => e.val)
          (hybridDict semantic_weight keyword_weight semantic_docs keyword_docs)).take k).map
          (fun e => e.doc))) := by
  refine ⟨fun e he => (hybridDict_val _ _ hnds hndk e he).2.1, ?_, ?_, ?_⟩
  · intro e he hs hk2
    have hval := (hybridDict_val _ _ hnds hndk e he).2.1
    rw [hval, if_pos hs, if_pos hk2]
    refine ⟨rfl, ?_⟩
    rw [hw]
    ring
  · intro hsw hkw i j hi hj hci hcj
    have hpw := sortDesc_pairwise (fun e : DictEntry ℚ => e.val)
      (hybridDict semantic_weight keyword_weight semantic_docs keyword_docs)
    have hvi : ((sortDesc (fun e : DictEntry ℚ => e.val)
        (hybridDict semantic_weight keyword_weight semantic_docs keyword_docs)).get
        ⟨i, hi⟩).val = semantic_weight + keyword_weight := by
      have hm := mem_sortDesc.1 (List.get_mem (sortDesc (fun e : DictEntry ℚ => e.val)
        (hybridDict semantic_weight keyword_weight semantic_docs keyword_docs)) i hi)
      have hch := (hybridDict_val _ _ hnds hndk _ hm).2.1
      rw [hch, if_pos hci.1, if_pos hci.2]
    have hvj : ((sortDesc (fun e : DictEntry ℚ => e.val)
        (hybridDict semantic_weight keyword_weight semantic_docs keyword_docs)).get
        ⟨j, hj⟩).val < semantic_weight + keyword_weight := by
      have hm := mem_sortDesc.1 (List.get_mem (sortDesc (fun e : DictEntry ℚ => e.val)
        (hybridDict semantic_weight keyword_weight semantic_docs keyword_docs)) j hj)
      have hch := (hybridDict_val _ _ hnds hndk _ hm).2.1
      rw [hch]
      by_cases hs : ((sortDesc (fun e : DictEntry ℚ => e.val)
          (hybridDict semantic_weight keyword_weight semantic_docs keyword_docs)).get
          ⟨j, hj⟩).key ∈ semantic_docs.map fp
      · have hknot : ¬ ((sortDesc (fun e : DictEntry ℚ => e.val)
            (hybridDict semantic_weight keyword_weight semantic_docs keyword_docs)).get
            ⟨j, hj⟩).key ∈ keyword_docs.map fp := fun hkk => hcj ⟨hs, hkk⟩
        rw [if_pos hs, if_neg hknot]
        linarith
      · rw [if_neg hs]
        by_cases hkk : ((sortDesc (fun e : DictEntry ℚ => e.val)
            (hybridDict semantic_weight keyword_weight semantic_docs keyword_docs)).get
            ⟨j, hj⟩).key ∈ keyword_docs.map fp
        · rw [if_pos hkk]
          linarith
        · rw [if_neg hkk]
          linarith
    rcases lt_trichotomy i j with h | h | h
    · exact h
    · subst h
      exact absurd hci hcj
    · have hle := (List.pairwise_iff_get.1 hpw) ⟨j, hj⟩ ⟨i, hi⟩ (Fin.mk_lt_mk.2 h)
      rw [hvi] at hle
      exact absurd hle (not_le.2 hvj)
  · intro vs bm q k hok hbm
    simp only [hybridRetrieve, hok]
    rw [hbm, ← hw]

theorem C3_hybrid_rank_fusion_witness :
    ((⟨fp wDoc2, wDoc2, 3/5 + 2/5⟩ : DictEntry ℚ)).val = 3/5 + 2/5 ∧
    ((⟨fp wDoc2, wDoc2, 3/5 + 2/5⟩ : DictEntry ℚ)).val = 1 := by
  have hdict : hybridDict ((3 : ℚ)/5) (2/5) [wDoc2] [wDoc2] =
      [⟨fp wDoc2, wDoc2, 3/5 + 2/5⟩] := by
    simp [hybridDict, dictAdd]
  exact (C3_hybrid_rank_fusion (3/5) (2/5) (by norm_num) (by norm_num) (by norm_num)
    [wDoc2] [wDoc2] (by simp) (by simp)).2.1 ⟨fp wDoc2, wDoc2, 3/5 + 2/5⟩
    (by rw [hdict]; exact List.mem_singleton_self _) (by simp) (by simp)
